import Mathlib

set_option maxRecDepth 8000

/-!
Verification of the knight's-tour ant-colony program (src/main.rs).

The `f32` values of the source are modelled exactly: a finite value is an
exact rational (the rounding of `f32` arithmetic is abstracted to exact
rational arithmetic), and the IEEE special values (the two infinities and
the not-a-number value) are represented explicitly, since the zero-weight
division `0.0 / 0.0` producing NaN is essential to the program's behaviour.
Machine indices (`i8`, `usize`) are modelled as `ℕ`; all indices arising in
the program are non-negative and small.  Randomness (`rand::random::<f32>()`,
uniform on `[0,1)`) is modelled as an explicit stream `ℕ → F` of draws,
indexed by the number of moves recorded so far (one draw per loop
iteration).  The tour loop is modelled with explicit fuel because the
source loop does not terminate on every graph state.
-/

/-- Model of Rust `f32` values: exact finite rationals plus the IEEE special
values `+∞`, `-∞` and NaN. -/
inductive F where
  | fin (q : ℚ)
  | inf
  | ninf
  | nan
  deriving DecidableEq

instance : Inhabited F := ⟨F.fin 0⟩

/-- IEEE addition on modelled `f32` values (exact on finite values). -/
def fadd : F → F → F
  | .fin a, .fin b => .fin (a + b)
  | .fin _, .inf => .inf
  | .fin _, .ninf => .ninf
  | .inf, .fin _ => .inf
  | .inf, .inf => .inf
  | .ninf, .fin _ => .ninf
  | .ninf, .ninf => .ninf
  | _, _ => .nan

/-- IEEE subtraction on modelled `f32` values (exact on finite values). -/
def fsub : F → F → F
  | .fin a, .fin b => .fin (a - b)
  | .fin _, .inf => .ninf
  | .fin _, .ninf => .inf
  | .inf, .fin _ => .inf
  | .inf, .ninf => .inf
  | .ninf, .fin _ => .ninf
  | .ninf, .inf => .ninf
  | _, _ => .nan

/-- IEEE multiplication on modelled `f32` values (exact on finite values). -/
def fmul : F → F → F
  | .fin a, .fin b => .fin (a * b)
  | .fin a, .inf => if a = 0 then .nan else if 0 < a then .inf else .ninf
  | .fin a, .ninf => if a = 0 then .nan else if 0 < a then .ninf else .inf
  | .inf, .fin b => if b = 0 then .nan else if 0 < b then .inf else .ninf
  | .ninf, .fin b => if b = 0 then .nan else if 0 < b then .ninf else .inf
  | .inf, .inf => .inf
  | .inf, .ninf => .ninf
  | .ninf, .inf => .ninf
  | .ninf, .ninf => .inf
  | _, _ => .nan

/-- IEEE division on modelled `f32` values: `0/0 = NaN`, `x/0 = ±∞` for
`x ≠ 0`, `x/±∞ = 0` (the sign of zero is not modelled), exact otherwise. -/
def fdiv : F → F → F
  | .fin a, .fin b =>
      if b = 0 then (if a = 0 then .nan else if 0 < a then .inf else .ninf)
      else .fin (a / b)
  | .fin _, .inf => .fin 0
  | .fin _, .ninf => .fin 0
  | .inf, .fin b => if 0 ≤ b then .inf else .ninf
  | .ninf, .fin b => if 0 ≤ b then .ninf else .inf
  | _, _ => .nan

/-- IEEE `≤` comparison: any comparison involving NaN is false. -/
def fle : F → F → Bool
  | .nan, _ => false
  | _, .nan => false
  | .ninf, _ => true
  | _, .inf => true
  | .fin a, .fin b => decide (a ≤ b)
  | _, _ => false

/-- IEEE `<` comparison: any comparison involving NaN is false. -/
def flt : F → F → Bool
  | .nan, _ => false
  | _, .nan => false
  | .ninf, .ninf => false
  | .ninf, _ => true
  | .inf, _ => false
  | .fin _, .inf => true
  | .fin a, .fin b => decide (a < b)
  | .fin _, .ninf => false

/-- `x.powf(1.0)`: IEEE `pow(x, 1)` is `x` for every `x`, which is the only
use of `powf` in the source (`pheromone_strength_exponent` is `1.0`). -/
def fpow1 (x : F) : F := x

/-- An edge of the move graph: a legal knight move from its owning square to
`target`, carrying a mutable pheromone level (source struct `Edge`). -/
structure Edge where
  pheromone : F
  target : ℕ
  deriving DecidableEq

instance : Inhabited Edge := ⟨⟨F.fin 0, 0⟩⟩

def Edge.new (pheromone : F) (target : ℕ) : Edge := ⟨pheromone, target⟩

/-- A square of the board (source struct `Node`): coordinates and the list
of outgoing edges. -/
structure Node where
  x : ℕ
  y : ℕ
  edges : List Edge
  deriving DecidableEq

instance : Inhabited Node := ⟨⟨0, 0, []⟩⟩

/-- `Node::new`: `x = index % 8`, `y = index / 8`, no edges yet. -/
def Node.new (index : ℕ) : Node := ⟨index % 8, index / 8, []⟩

/-- `Node::edge` / `Node::edge_mut`: index into the edge list. -/
def Node.edge (n : Node) (index : ℕ) : Edge := n.edges.getD index default

/-- The move graph (source struct `Graph`): 64 nodes. -/
structure Graph where
  nodes : List Node
  deriving DecidableEq

/-- The target indices scanned for one node in `Graph::new`: `x` runs over
`max(0, nx-2) ..= min(7, nx+2)` (outer loop), `y` over
`max(0, ny-2) ..= min(7, ny+2)` (inner loop), keeping the squares at
squared distance 5 (the knight-move test); the kept target is `y*8 + x`.
`nx - 2` is `ℕ` truncated subtraction, which equals `max(0, nx-2)`. -/
def nodeTargets (nx ny : ℕ) : List ℕ :=
  ((List.range' (nx - 2) (min 7 (nx + 2) + 1 - (nx - 2))).map (fun (x : ℕ) =>
    (List.range' (ny - 2) (min 7 (ny + 2) + 1 - (ny - 2))).filterMap (fun (y : ℕ) =>
      if ((nx : ℤ) - (x : ℤ)) ^ 2 + ((ny : ℤ) - (y : ℤ)) ^ 2 = 5 then
        some ((y * 8 + x : ℕ))
      else none))).flatten

/-- The edges built for one node in `Graph::new`: each qualifying target
becomes `Edge::new(initial_pheromone, target)`, in scan order. -/
def nodeEdges (initial : F) (nx ny : ℕ) : List Edge :=
  (nodeTargets nx ny).map (fun t => Edge.new initial t)

/-- `Graph::new(initial_pheromone)`: 64 nodes, each with the edges found by
the bounding-box scan. -/
def Graph.new (initial : F) : Graph :=
  ⟨(List.range 64).map (fun i =>
    let node := Node.new i
    { node with edges := nodeEdges initial node.x node.y })⟩

/-- `Graph::node` / `Graph::node_mut`: index into the node list. -/
def Graph.node (g : Graph) (index : ℕ) : Node := g.nodes.getD index default

/-- `Graph::evaporate_pheromones(rate)`: every edge's pheromone is
multiplied by `1.0 - rate`. -/
def Graph.evaporate_pheromones (g : Graph) (rate : F) : Graph :=
  ⟨g.nodes.map (fun node =>
    { node with edges := node.edges.map (fun e =>
        { e with pheromone := fmul e.pheromone (fsub (F.fin 1) rate) }) })⟩

/-- Convenience accessor: the pheromone of edge `k` of node `n`. -/
def Graph.pher (g : Graph) (n k : ℕ) : F := ((g.node n).edge k).pheromone

/-- An ant (source struct `Ant`): start square, current square, the tabu
list of visited squares, and the recorded move (edge-index) sequence. -/
structure Ant where
  start : ℕ
  current : ℕ
  tabu : List ℕ
  moves : List ℕ
  deriving DecidableEq

/-- `Ant::new(start)`: the tabu list starts as `[start]`. -/
def Ant.new (start : ℕ) : Ant := ⟨start, start, [start], []⟩

/-- The availability scan of `Ant::tour`: for each edge `(k, edge)` of the
current node in order, if `target` is not in the tabu list, record
`(k, pheromone.powf(1.0))`.  `k0` is the index of the first edge of the
remaining list (the scan starts with `k0 = 0`). -/
def availablePks (tabu : List ℕ) : ℕ → List Edge → List (ℕ × F)
  | _, [] => []
  | k0, e :: es =>
      if tabu.contains e.target then availablePks tabu (k0 + 1) es
      else (k0, fpow1 e.pheromone) :: availablePks tabu (k0 + 1) es

/-- `pk_sum`: the running `f32` sum of the recorded pheromone strengths,
starting from `0.0`. -/
def pkSum (pks : List (ℕ × F)) : F := pks.foldl (fun s pk => fadd s pk.2) (F.fin 0)

/-- The probability list `ps` of `Ant::tour`: each strength divided by
`pk_sum`. -/
def probs (pks : List (ℕ × F)) (s : F) : List (ℕ × F) :=
  pks.map (fun pk => (pk.1, fdiv pk.2 s))

/-- The cumulative-probability selection loop of `Ant::tour`: `k` starts at
`0`; for each `p` in `ps`, `x -= p.1`, and if `x ≤ 0.0` then `k = p.0` and
the loop breaks.  If no element triggers, `k` keeps its initial value `0`. -/
def selectK : List (ℕ × F) → F → ℕ
  | [], _ => 0
  | p :: rest, x =>
      let x2 := fsub x p.2
      if fle x2 (F.fin 0) then p.1 else selectK rest x2

/-- The loop of `Ant::tour`, with explicit fuel (the source `loop` has no
bound and does not terminate on every graph state).  Returns the mutated
ant and whether the loop exited by itself (`pks.is_empty()`); the draw for
an iteration is `draws i` where `i` is the number of moves recorded so
far. -/
def tourAux (g : Graph) (draws : ℕ → F) : ℕ → Ant → Ant × Bool
  | 0, a => (a, false)
  | fuel + 1, a =>
      let node := g.node a.current
      let pks := availablePks a.tabu 0 node.edges
      if pks.isEmpty then (a, true)
      else
        let ps := probs pks (pkSum pks)
        let x := draws a.moves.length
        let k := selectK ps x
        let next := (node.edge k).target
        tourAux g draws fuel
          { a with current := next, tabu := a.tabu ++ [next], moves := a.moves ++ [k] }

/-- `Ant::tour`: run the loop; on natural exit return
`moves.len() == 63`; `none` when the fuel ran out before the loop exited. -/
def Ant.tour (a : Ant) (g : Graph) (draws : ℕ → F) (fuel : ℕ) : Ant × Option Bool :=
  let r := tourAux g draws fuel a
  (r.1, if r.2 then some (r.1.moves.length == 63) else none)

/-- The pheromone deposit of step `i` in `Ant::lay_pheromone`:
`pheromone_update_rate * ((num_moves - i) as f32 / (63 - i) as f32)` with
`pheromone_update_rate = 1.0`.  The `usize` subtractions are modelled by
`ℕ` truncated subtraction, which agrees with the source for `i ≤ 63`. -/
def layDelta (numMoves i : ℕ) : F :=
  fmul (F.fin 1) (fdiv (F.fin ((numMoves - i : ℕ) : ℚ)) (F.fin ((63 - i : ℕ) : ℚ)))

/-- Replace the element at an index of a list (no-op when out of range),
modelling in-place mutation through `node_mut` / `edge_mut`. -/
def modList {α : Type} : List α → ℕ → (α → α) → List α
  | [], _, _ => []
  | a :: l, 0, f => f a :: l
  | a :: l, n + 1, f => a :: modList l n f

/-- `graph.node_mut(n).edge_mut(k).pheromone = f(...)`: update one edge's
pheromone in place. -/
def updatePher (g : Graph) (n k : ℕ) (f : F → F) : Graph :=
  ⟨modList g.nodes n (fun node =>
    { node with edges := modList node.edges k (fun e =>
        { e with pheromone := f e.pheromone }) })⟩

/-- The replay fold of `Ant::lay_pheromone`: state is (graph, current
square, step index).  For each recorded move `k`: add `layDelta num i` to
the pheromone of edge `k` of the current square, then move to that edge's
target. -/
def layGoSt (num : ℕ) : Graph × ℕ × ℕ → List ℕ → Graph × ℕ × ℕ
  | s, [] => s
  | (g, cur, i), k :: ks =>
      let g2 := updatePher g cur k (fun p => fadd p (layDelta num i))
      layGoSt num (g2, ((g2.node cur).edge k).target, i + 1) ks

/-- `Ant::lay_pheromone`: replay the recorded moves from `start`,
depositing `layDelta` on each edge taken. -/
def Ant.lay_pheromone (a : Ant) (g : Graph) : Graph :=
  (layGoSt a.moves.length (g, a.start, 0) a.moves).1

/-- The replay state after the first `i` recorded moves of
`Ant::lay_pheromone`. -/
def layState (a : Ant) (g : Graph) (i : ℕ) : Graph × ℕ × ℕ :=
  layGoSt a.moves.length (g, a.start, 0) (a.moves.take i)

/-- The sequence of (square, edge-index) pairs whose edges are touched by
the replay fold of `Ant::lay_pheromone`. -/
def layFootprintAux (num : ℕ) : Graph × ℕ × ℕ → List ℕ → List (ℕ × ℕ)
  | _, [] => []
  | (g, cur, i), k :: ks =>
      let g2 := updatePher g cur k (fun p => fadd p (layDelta num i))
      (cur, k) :: layFootprintAux num (g2, ((g2.node cur).edge k).target, i + 1) ks

/-- The edges deposited on by `Ant::lay_pheromone`. -/
def Ant.layFootprint (a : Ant) (g : Graph) : List (ℕ × ℕ) :=
  layFootprintAux a.moves.length (g, a.start, 0) a.moves

/-! ### Concrete inputs used in counterexamples and witnesses -/

/-- The graph `Graph::new(0.0)`: every pheromone level exactly zero (also
reached in a real run once evaporation underflows an untouched edge's
pheromone to `0.0`). -/
def G0 : Graph := Graph.new (F.fin 0)

/-- A constant draw stream: every draw is `0.5`. -/
def dHalf : ℕ → F := fun _ => F.fin (1 / 2)

/-- `Graph::new(1.0)` with the outgoing edges of square 17 set to pheromone
`0.0` (a state of the kind evaporation produces on unused edges). -/
def G1 : Graph :=
  ⟨modList (Graph.new (F.fin 1)).nodes 17 (fun node =>
    { node with edges := node.edges.map (fun e => { e with pheromone := F.fin 0 }) })⟩

/-- Draws steering a 63-move run on `G1` from square 0 that revisits square
0 (via the zero-weight fallback at square 17) and never visits square 63. -/
def d1list : List ℚ :=
  [1/4, 1/2, 1/2, 1/10, 1/6, 3/4, 5/8, 5/6, 3/4, 9/10, 5/6, 1/4, 3/10, 1/6,
   1/4, 3/8, 3/10, 1/2, 1/8, 1/6, 1/2, 1/6, 1/8, 3/4, 3/4, 5/8, 3/4, 1/6,
   5/6, 1/2, 5/6, 5/6, 1/2, 3/4, 7/8, 1/4, 1/6, 1/6, 1/4, 1/4, 5/6, 1/4,
   1/6, 1/6, 1/4, 1/6, 1/2, 1/4, 1/4, 1/4, 1/6, 1/4, 1/4, 3/4, 3/4, 1/4,
   1/6, 1/4, 1/4, 1/2, 3/4, 1/4, 1/2]

/-- The draw stream of the `G1` run. -/
def d1 : ℕ → F := fun i => F.fin (d1list.getD i (1 / 2))

/-! ### Basic lemmas about the float model -/

lemma fsub_nan (x : F) : fsub x F.nan = F.nan := by cases x <;> rfl

lemma fle_nan_zero : fle F.nan (F.fin 0) = false := rfl

lemma fdiv_fin_zero_zero : fdiv (F.fin 0) (F.fin 0) = F.nan := by
  simp [fdiv]

lemma fadd_fin_zero (q : ℚ) : fadd (F.fin q) (F.fin 0) = F.fin q := by
  simp [fadd]

/-! ### Lemmas about the selection scan -/

/-- If every probability in the list is NaN, the cumulative scan never
triggers (`x - NaN = NaN` and `NaN ≤ 0` is false), so `k` keeps its
initial value `0`. -/
lemma selectK_all_nan (l : List (ℕ × F)) (h : ∀ p ∈ l, p.2 = F.nan) (x : F) :
    selectK l x = 0 := by
  induction l generalizing x with
  | nil => rfl
  | cons p rest ih =>
    have hp := h p (List.mem_cons_self p rest)
    simp only [selectK, hp, fsub_nan, fle_nan_zero, Bool.false_eq_true, if_false]
    exact ih (fun q hq => h q (List.mem_cons_of_mem _ hq)) _

lemma pkSum_all_zero (l : List (ℕ × F)) (h : ∀ p ∈ l, p.2 = F.fin 0) :
    pkSum l = F.fin 0 := by
  have aux : ∀ (m : List (ℕ × F)), (∀ p ∈ m, p.2 = F.fin 0) → ∀ q : ℚ,
      m.foldl (fun s pk => fadd s pk.2) (F.fin q) = F.fin q := by
    intro m
    induction m with
    | nil => intro _ q; rfl
    | cons p rest ih =>
      intro hm q
      have hp := hm p (List.mem_cons_self p rest)
      simp only [List.foldl_cons, hp, fadd_fin_zero]
      exact ih (fun r hr => hm r (List.mem_cons_of_mem _ hr)) q
  exact aux l h 0

/-- With all-zero strengths the probabilities are all `0.0 / 0.0 = NaN`,
so the selection defaults to `k = 0` whatever the draw is. -/
lemma selectK_probs_zero (pks : List (ℕ × F)) (h : ∀ p ∈ pks, p.2 = F.fin 0)
    (x : F) : selectK (probs pks (pkSum pks)) x = 0 := by
  rw [pkSum_all_zero pks h]
  apply selectK_all_nan
  intro p hp
  obtain ⟨q, hq, rfl⟩ := List.mem_map.1 hp
  simp only [h q hq, fdiv_fin_zero_zero]

/-- Every strength recorded by the availability scan is the `powf(1.0)` of
the pheromone of some edge of the scanned list. -/
lemma availablePks_all_zero (tabu : List ℕ) (es : List Edge)
    (h : ∀ e ∈ es, e.pheromone = F.fin 0) :
    ∀ k0, ∀ p ∈ availablePks tabu k0 es, p.2 = F.fin 0 := by
  induction es with
  | nil => intro k0 p hp; simp [availablePks] at hp
  | cons e rest ih =>
    intro k0 p hp
    have he := h e (List.mem_cons_self e rest)
    have hr := fun e' he' => h e' (List.mem_cons_of_mem _ he')
    simp only [availablePks] at hp
    by_cases hc : tabu.contains e.target
    · rw [if_pos hc] at hp
      exact ih hr _ p hp
    · rw [if_neg hc] at hp
      rcases List.mem_cons.1 hp with rfl | hp2
      · simpa [fpow1] using he
      · exact ih hr _ p hp2

/-- If some edge of the list has a target not in the tabu list, the
availability scan returns a non-empty list. -/
lemma availablePks_nonempty (tabu : List ℕ) (es : List Edge) (e : Edge)
    (he : e ∈ es) (hne : tabu.contains e.target = false) :
    ∀ k0, (availablePks tabu k0 es).isEmpty = false := by
  induction es with
  | nil => cases he
  | cons e' rest ih =>
    intro k0
    simp only [availablePks]
    rcases List.mem_cons.1 he with rfl | he2
    · rw [hne]
      simp
    · by_cases hc : tabu.contains e'.target
      · rw [if_pos hc]
        exact ih he2 _
      · rw [if_neg hc]
        simp

lemma contains_false_of_forall (l : List ℕ) (v : ℕ)
    (h : ∀ t ∈ l, t = 0 ∨ t = 17) (h0 : v ≠ 0) (h17 : v ≠ 17) :
    l.contains v = false := by
  cases hc : l.contains v
  · rfl
  · exfalso
    have hv : v ∈ l := List.mem_of_elem_eq_true hc
    rcases h v hv with rfl | rfl
    · exact h0 rfl
    · exact h17 rfl

/-! ### The `G0` ping-pong: non-termination of the tour loop -/

/-- Invariant of the tour loop on `G0` started at square 0: the ant sits on
square 0 or 17 and its tabu list holds only those two squares. -/
def pingpongInv (a : Ant) : Prop :=
  (a.current = 0 ∨ a.current = 17) ∧ ∀ t ∈ a.tabu, t = 0 ∨ t = 17

/-- One unfolding of the tour loop. -/
lemma tourAux_succ (g : Graph) (draws : ℕ → F) (fuel : ℕ) (a : Ant) :
    tourAux g draws (fuel + 1) a =
      (if (availablePks a.tabu 0 (g.node a.current).edges).isEmpty then (a, true)
       else
        tourAux g draws fuel
          { a with
            current := ((g.node a.current).edge
              (selectK
                (probs (availablePks a.tabu 0 (g.node a.current).edges)
                  (pkSum (availablePks a.tabu 0 (g.node a.current).edges)))
                (draws a.moves.length))).target,
            tabu := a.tabu ++ [((g.node a.current).edge
              (selectK
                (probs (availablePks a.tabu 0 (g.node a.current).edges)
                  (pkSum (availablePks a.tabu 0 (g.node a.current).edges)))
                (draws a.moves.length))).target],
            moves := a.moves ++ [selectK
              (probs (availablePks a.tabu 0 (g.node a.current).edges)
                (pkSum (availablePks a.tabu 0 (g.node a.current).edges)))
              (draws a.moves.length)] }) := rfl

lemma G0_node0_edges : (G0.node 0).edges = [⟨F.fin 0, 17⟩, ⟨F.fin 0, 10⟩] := by
  with_unfolding_all decide

lemma G0_node17_edges : (G0.node 17).edges =
    [⟨F.fin 0, 0⟩, ⟨F.fin 0, 32⟩, ⟨F.fin 0, 2⟩, ⟨F.fin 0, 34⟩,
     ⟨F.fin 0, 11⟩, ⟨F.fin 0, 27⟩] := by with_unfolding_all decide

/-- On `G0` the tour loop never exits: from any state satisfying the
invariant, the ant keeps bouncing between squares 0 and 17 through the
`k = 0` fallback. -/
lemma tourAux_G0_stuck : ∀ (fuel : ℕ) (a : Ant), pingpongInv a →
    (tourAux G0 dHalf fuel a).2 = false := by
  intro fuel
  induction fuel with
  | zero => intro a _; rfl
  | succ fuel ih =>
    rintro a ⟨hcur, htabu⟩
    rw [tourAux_succ]
    rcases hcur with hcur | hcur
    · -- current square 0: edges lead to 17 (index 0) and 10 (index 1)
      rw [hcur, G0_node0_edges]
      have h10 : a.tabu.contains 10 = false :=
        contains_false_of_forall _ _ htabu (by decide) (by decide)
      have hie :
          (availablePks a.tabu 0 [(⟨F.fin 0, 17⟩ : Edge), ⟨F.fin 0, 10⟩]).isEmpty = false :=
        availablePks_nonempty _ _ ⟨F.fin 0, 10⟩ (by simp) h10 0
      rw [hie]
      simp only [Bool.false_eq_true, if_false]
      have hz : ∀ p ∈ availablePks a.tabu 0 [(⟨F.fin 0, 17⟩ : Edge), ⟨F.fin 0, 10⟩],
          p.2 = F.fin 0 := availablePks_all_zero _ _ (by simp) 0
      rw [selectK_probs_zero _ hz]
      refine ih _ ⟨Or.inr rfl, ?_⟩
      intro t ht
      rcases List.mem_append.1 ht with ht | ht
      · exact htabu t ht
      · simp at ht
        exact Or.inr ht
    · -- current square 17: all outgoing pheromone is zero; edge 0 leads back to 0
      rw [hcur, G0_node17_edges]
      have h32 : a.tabu.contains 32 = false :=
        contains_false_of_forall _ _ htabu (by decide) (by decide)
      have hie : (availablePks a.tabu 0
          [(⟨F.fin 0, 0⟩ : Edge), ⟨F.fin 0, 32⟩, ⟨F.fin 0, 2⟩, ⟨F.fin 0, 34⟩,
           ⟨F.fin 0, 11⟩, ⟨F.fin 0, 27⟩]).isEmpty = false :=
        availablePks_nonempty _ _ ⟨F.fin 0, 32⟩ (by simp) h32 0
      rw [hie]
      simp only [Bool.false_eq_true, if_false]
      have hz : ∀ p ∈ availablePks a.tabu 0
          [(⟨F.fin 0, 0⟩ : Edge), ⟨F.fin 0, 32⟩, ⟨F.fin 0, 2⟩, ⟨F.fin 0, 34⟩,
           ⟨F.fin 0, 11⟩, ⟨F.fin 0, 27⟩], p.2 = F.fin 0 :=
        availablePks_all_zero _ _ (by simp) 0
      rw [selectK_probs_zero _ hz]
      refine ih _ ⟨Or.inl rfl, ?_⟩
      intro t ht
      rcases List.mem_append.1 ht with ht | ht
      · exact htabu t ht
      · simp at ht
        exact Or.inl ht

/-- C10: the claim says `Ant::tour` terminates for every graph state and
draw sequence.  It is false: on `Graph::new(0.0)` (every pheromone zero, a
state the program itself reaches once evaporation underflows an unused
edge to zero) an ant started at square 0 bounces between squares 0 and 17
forever: every probability is `0/0 = NaN`, the scan never triggers, and
the `k = 0` fallback repeatedly selects an already-visited square.  The
loop of `Ant::tour` never exits, for any amount of fuel. -/
theorem C10_tour_nontermination :
    ¬ ∃ (fuel : ℕ) (a : Ant), tourAux G0 dHalf fuel (Ant.new 0) = (a, true) := by
  rintro ⟨fuel, a, h⟩
  have h2 := tourAux_G0_stuck fuel (Ant.new 0) (by constructor <;> simp [Ant.new])
  rw [h] at h2
  simp at h2

/-- C2: the claim says the tabu list never holds a square twice and the
move count never exceeds 63.  Both fail on `Graph::new(0.0)`: after two
iterations the tabu list is `[0, 17, 0]` (square 0 recorded twice), and
after 70 iterations 70 moves have been recorded. -/
theorem C2_tabu_duplicates_and_moves_exceed_63 :
    (tourAux G0 dHalf 2 (Ant.new 0)).1.tabu = [0, 17, 0] ∧
    ¬ (tourAux G0 dHalf 2 (Ant.new 0)).1.tabu.Nodup ∧
    (tourAux G0 dHalf 70 (Ant.new 0)).1.moves.length = 70 := by
  refine ⟨by with_unfolding_all decide, by with_unfolding_all decide,
    by with_unfolding_all decide⟩

/-- C3: the claim says that when the draw `x` is still positive after the
whole scan, the LAST available move is selected, so the selected move is
always available.  The code instead leaves `k` at its initial value `0`,
which indexes the node's full edge list: at square 17 of `G0` with tabu
`[0, 17]` the available moves are the edge indices `[1, 2, 3, 4, 5]`
(last one `5`), the scan never triggers (all probabilities are NaN), and
the selected index is `0` — the edge back to the already-visited
square 0, not an available move at all. -/
theorem C3_fallback_selects_first_edge_not_last_available :
    (availablePks [0, 17] 0 (G0.node 17).edges).map Prod.fst = [1, 2, 3, 4, 5] ∧
    selectK
      (probs (availablePks [0, 17] 0 (G0.node 17).edges)
        (pkSum (availablePks [0, 17] 0 (G0.node 17).edges)))
      (F.fin (1 / 2)) = 0 ∧
    ((G0.node 17).edge 0).target = 0 ∧ (0 : ℕ) ∈ [0, 17] := by
  refine ⟨by with_unfolding_all decide, by with_unfolding_all decide,
    by with_unfolding_all decide, by decide⟩

/-- C4: the claim says a zero weight sum is handled by a uniform fallback
among the available moves, never producing NaN.  The code has no such
fallback: at square 0 of `G0` (weights 0 and 0, sum `0.0`) both computed
probabilities are `0.0/0.0 = NaN`, and the selection returns edge index 0
regardless of the draw (shown for draws `0.5` and `0.25`) instead of a
uniform random choice. -/
theorem C4_zero_weight_sum_yields_nan_probabilities :
    pkSum (availablePks [0] 0 (G0.node 0).edges) = F.fin 0 ∧
    probs (availablePks [0] 0 (G0.node 0).edges)
      (pkSum (availablePks [0] 0 (G0.node 0).edges)) = [(0, F.nan), (1, F.nan)] ∧
    selectK
      (probs (availablePks [0] 0 (G0.node 0).edges)
        (pkSum (availablePks [0] 0 (G0.node 0).edges))) (F.fin (1 / 2)) = 0 ∧
    selectK
      (probs (availablePks [0] 0 (G0.node 0).edges)
        (pkSum (availablePks [0] 0 (G0.node 0).edges))) (F.fin (1 / 4)) = 0 := by
  refine ⟨by with_unfolding_all decide, by with_unfolding_all decide,
    by with_unfolding_all decide, by with_unfolding_all decide⟩

/-! ### Evaporation -/

lemma evap_nodes_getD (q : ℚ) (l : List Node) (n : ℕ) :
    ((l.map (fun node : Node => ({ node with edges := node.edges.map (fun e : Edge =>
        ({ e with pheromone := fmul e.pheromone (fsub (F.fin 1) (F.fin q)) } : Edge)) } : Node))).getD
      n default).edges
      = (l.getD n default).edges.map (fun e : Edge =>
        ({ e with pheromone := fmul e.pheromone (fsub (F.fin 1) (F.fin q)) } : Edge)) := by
  induction l generalizing n with
  | nil => cases n <;> rfl
  | cons a t ih =>
    cases n with
    | zero => rfl
    | succ m => exact ih m

lemma evap_edges_getD (q : ℚ) (l : List Edge) (k : ℕ) :
    ((l.map (fun e : Edge => ({ e with pheromone := fmul e.pheromone (fsub (F.fin 1) (F.fin q)) } : Edge))).getD
      k default).pheromone
      = fmul ((l.getD k default).pheromone) (fsub (F.fin 1) (F.fin q)) := by
  induction l generalizing k with
  | nil => cases k <;> simp [fmul, fsub] <;> rfl
  | cons a t ih =>
    cases k with
    | zero => rfl
    | succ m => exact ih m

/-- C6: after `evaporate_pheromones(rate)` with `rate = q ∈ [0,1)`, every
edge's pheromone is exactly its old value times `(1 - rate)` (the `f32`
product, exact here since the model has no rounding).  The spec scenario
`evaporate(0.25)` on pheromone `1.0` giving exactly `0.75` is the witness
`C6_witness`. -/
theorem C6_evaporate_scales_every_edge (g : Graph) (rate : F) (q : ℚ)
    (hq : rate = F.fin q) (h0 : 0 ≤ q) (h1 : q < 1) (n k : ℕ) :
    (g.evaporate_pheromones rate).pher n k = fmul (g.pher n k) (fsub (F.fin 1) rate) := by
  subst hq
  simp only [Graph.evaporate_pheromones, Graph.pher, Graph.node, Node.edge]
  rw [evap_nodes_getD, evap_edges_getD]

/-- Witness for C6: `evaporate(0.25)` applied to an edge with pheromone
`1.0` (square 0, edge 0 of `Graph::new(1.0)`) yields exactly `0.75`, and
the rate `1/4` satisfies `0 ≤ 1/4 < 1`. -/
theorem C6_witness :
    ((Graph.new (F.fin 1)).evaporate_pheromones (F.fin (1 / 4))).pher 0 0 = F.fin (3 / 4) ∧
    (0 : ℚ) ≤ 1 / 4 ∧ (1 / 4 : ℚ) < 1 := by
  refine ⟨?_, by norm_num, by norm_num⟩
  rw [C6_evaporate_scales_every_edge (Graph.new (F.fin 1)) (F.fin (1 / 4)) (1 / 4) rfl
    (by norm_num) (by norm_num) 0 0]
  with_unfolding_all decide

/-! ### Graph construction structure -/

lemma nodeTargets_facts : ∀ i < 64,
    2 ≤ (nodeTargets (i % 8) (i / 8)).length ∧
    (nodeTargets (i % 8) (i / 8)).length ≤ 8 ∧
    ∀ t ∈ nodeTargets (i % 8) (i / 8), t < 64 ∧
      (((i % 8 : ℕ) : ℤ) - ((t % 8 : ℕ) : ℤ)) ^ 2 +
      (((i / 8 : ℕ) : ℤ) - ((t / 8 : ℕ) : ℤ)) ^ 2 = 5 := by
  with_unfolding_all decide

lemma nodeTargets_zero : nodeTargets 0 0 = [17, 10] := by
  with_unfolding_all decide

/-- C7: in any constructed graph `Graph::new(p)` there are 64 squares;
every square has between 2 and 8 outgoing moves; every move's target is on
the board and at knight-move distance (squared coordinate distance 5) from
its source; and square 0 has exactly the two moves to squares 17 and 10,
in that scan order. -/
theorem C7_graph_structure (p : F) :
    (Graph.new p).nodes.length = 64 ∧
    (∀ node ∈ (Graph.new p).nodes,
      2 ≤ node.edges.length ∧ node.edges.length ≤ 8 ∧
      ∀ e ∈ node.edges, e.target < 64 ∧
        ((node.x : ℤ) - ((e.target % 8 : ℕ) : ℤ)) ^ 2 +
        ((node.y : ℤ) - ((e.target / 8 : ℕ) : ℤ)) ^ 2 = 5) ∧
    ((Graph.new p).node 0).edges.map Edge.target = [17, 10] := by
  refine ⟨by simp [Graph.new], ?_, ?_⟩
  · intro node hmem
    simp only [Graph.new, List.mem_map, List.mem_range] at hmem
    obtain ⟨i, hi, rfl⟩ := hmem
    have hf := nodeTargets_facts i hi
    simp only [Node.new]
    refine ⟨?_, ?_, ?_⟩
    · simpa [nodeEdges] using hf.1
    · simpa [nodeEdges] using hf.2.1
    · intro e he
      simp only [nodeEdges, List.mem_map] at he
      obtain ⟨t, ht, rfl⟩ := he
      simpa [Edge.new] using hf.2.2 t ht
  · have h0 : (Graph.new p).node 0 = { x := 0, y := 0, edges := nodeEdges p 0 0 } := rfl
    rw [h0]
    show (nodeEdges p 0 0).map Edge.target = [17, 10]
    rw [nodeEdges, List.map_map]
    have : (Edge.target ∘ fun t => Edge.new p t) = fun t => t := rfl
    rw [this, nodeTargets_zero]
    rfl

/-! ### C1: what `Ant::tour` reports -/

/-- C1 (amended): `Ant::tour` reports a complete tour if and only if
exactly 63 moves were recorded.  (The original claim also asserted that 63
recorded moves imply that all 64 squares were visited with no repeats;
`C1_counterexample_repeat_square` shows that implication fails, because the
zero-weight fallback can record a move to an already-visited square.) -/
theorem C1_tour_complete_iff_63_moves (a : Ant) (g : Graph) (draws : ℕ → F)
    (fuel : ℕ) (a2 : Ant) (r : Bool) (h : a.tour g draws fuel = (a2, some r)) :
    r = true ↔ a2.moves.length = 63 := by
  unfold Ant.tour at h
  rcases hr : tourAux g draws fuel a with ⟨a3, fin3⟩
  rw [hr] at h
  cases fin3 with
  | false => simp at h
  | true =>
    simp only [if_true] at h
    rw [Prod.mk.injEq] at h
    obtain ⟨rfl, h2⟩ := h
    rw [Option.some.injEq] at h2
    subst h2
    simp

/-- Counterexample to C1 as stated: on `G1` (pheromone 1 everywhere except
square 17's outgoing edges, which are 0 — the kind of state evaporation
produces) with the explicit draws `d1`, the ant started at square 0 records
exactly 63 moves and the tour is reported complete, yet square 0 was
visited twice and only 63 distinct squares were visited (square 63 never
was). -/
theorem C1_counterexample_repeat_square :
    ((Ant.new 0).tour G1 d1 100).2 = some true ∧
    ¬ ((Ant.new 0).tour G1 d1 100).1.tabu.Nodup ∧
    ((Ant.new 0).tour G1 d1 100).1.tabu.count 0 = 2 ∧
    ((Ant.new 0).tour G1 d1 100).1.tabu.dedup.length = 63 := by
  refine ⟨?_, ?_, ?_, ?_⟩ <;> with_unfolding_all decide

/-- Witness for C1: the amended theorem applied to the concrete completed
run on `G1`. -/
theorem C1_witness : ((Ant.new 0).tour G1 d1 100).1.moves.length = 63 := by
  have h : (Ant.new 0).tour G1 d1 100 = (((Ant.new 0).tour G1 d1 100).1, some true) := by
    with_unfolding_all decide
  exact (C1_tour_complete_iff_63_moves _ _ _ _ _ _ h).mp rfl

/-! ### The replay fold of `lay_pheromone` -/

lemma modList_length {α : Type} (l : List α) (n : ℕ) (f : α → α) :
    (modList l n f).length = l.length := by
  induction l generalizing n with
  | nil => rfl
  | cons a t ih =>
    cases n with
    | zero => rfl
    | succ m => simpa [modList] using ih m

lemma modList_getD_lt {α : Type} (l : List α) (n : ℕ) (f : α → α) (d : α)
    (h : n < l.length) : (modList l n f).getD n d = f (l.getD n d) := by
  induction l generalizing n with
  | nil => simp at h
  | cons a t ih =>
    cases n with
    | zero => rfl
    | succ m => exact ih m (by simpa using h)

lemma modList_getD_ne {α : Type} (l : List α) (n m : ℕ) (f : α → α) (d : α)
    (h : m ≠ n) : (modList l n f).getD m d = l.getD m d := by
  induction l generalizing n m with
  | nil => rfl
  | cons a t ih =>
    cases n with
    | zero =>
      cases m with
      | zero => exact absurd rfl h
      | succ m2 => rfl
    | succ n2 =>
      cases m with
      | zero => rfl
      | succ m2 => exact ih n2 m2 (by omega)

lemma modList_ge {α : Type} (l : List α) (n : ℕ) (f : α → α)
    (h : l.length ≤ n) : modList l n f = l := by
  induction l generalizing n with
  | nil => rfl
  | cons a t ih =>
    cases n with
    | zero => simp at h
    | succ m => simp only [modList]; rw [ih m (by simpa using h)]

lemma updatePher_pher_same (g : Graph) (n k : ℕ) (f : F → F)
    (hn : n < g.nodes.length) (hk : k < (g.node n).edges.length) :
    (updatePher g n k f).pher n k = f (g.pher n k) := by
  unfold Graph.node at hk
  unfold updatePher Graph.pher Graph.node Node.edge
  rw [modList_getD_lt _ _ _ _ hn]
  dsimp only
  rw [modList_getD_lt _ _ _ _ hk]

lemma layGoSt_append (num : ℕ) (l1 l2 : List ℕ) : ∀ s : Graph × ℕ × ℕ,
    layGoSt num s (l1 ++ l2) = layGoSt num (layGoSt num s l1) l2 := by
  induction l1 with
  | nil => intro s; rfl
  | cons k ks ih =>
    rintro ⟨g, cur, i⟩
    simp only [List.cons_append, layGoSt]
    exact ih _

lemma layGoSt_idx (num : ℕ) : ∀ (l : List ℕ) (g : Graph) (cur i : ℕ),
    (layGoSt num (g, cur, i) l).2.2 = i + l.length := by
  intro l
  induction l with
  | nil => intro g cur i; rfl
  | cons k ks ih =>
    intro g cur i
    simp only [layGoSt, List.length_cons]
    rw [ih]
    omega

lemma layGoSt_single (num : ℕ) (s : Graph × ℕ × ℕ) (k : ℕ) :
    layGoSt num s [k] =
      (updatePher s.1 s.2.1 k (fun p => fadd p (layDelta num s.2.2)),
       (((updatePher s.1 s.2.1 k (fun p => fadd p (layDelta num s.2.2))).node s.2.1).edge k).target,
       s.2.2 + 1) := rfl

/-- C5: `Ant::lay_pheromone` replays the recorded moves from `start`
(`(layState a g 0).2.1 = a.start`, final graph after all `num` moves), and
at each step `i < num` it adds exactly
`layDelta num i = rate * (num - i) / (63 - i)` with `rate = 1.0` to the
pheromone of the edge taken at that step, then moves to that edge's
target.  The in-bounds hypotheses say the replayed square and edge index
exist; `hnum` restricts to move counts where the `usize` subtraction
`63 - i` of the source agrees with `ℕ` subtraction. -/
theorem C5_lay_deposit_formula (a : Ant) (g : Graph) (i : ℕ)
    (hnum : a.moves.length ≤ 63) (hi : i < a.moves.length)
    (hn : (layState a g i).2.1 < (layState a g i).1.nodes.length)
    (hk : a.moves.getD i 0 < ((layState a g i).1.node ((layState a g i).2.1)).edges.length) :
    (layState a g i).2.2 = i ∧
    (layState a g (i + 1)).1.pher ((layState a g i).2.1) (a.moves.getD i 0) =
      fadd ((layState a g i).1.pher ((layState a g i).2.1) (a.moves.getD i 0))
        (layDelta a.moves.length i) ∧
    (layState a g (i + 1)).2.1 =
      (((layState a g (i + 1)).1.node ((layState a g i).2.1)).edge (a.moves.getD i 0)).target ∧
    a.lay_pheromone g = (layState a g a.moves.length).1 ∧
    (layState a g 0).2.1 = a.start := by
  have hidx : (layState a g i).2.2 = i := by
    simp only [layState]
    rw [layGoSt_idx]
    simp [List.length_take, Nat.min_eq_left hi.le]
  have htake : a.moves.take (i + 1) = a.moves.take i ++ [a.moves.getD i 0] := by
    rw [List.take_succ]
    congr 1
    rw [List.getElem?_eq_getElem hi]
    simp [List.getD_eq_getElem?_getD, List.getElem?_eq_getElem hi]
  have hstep : layState a g (i + 1) =
      layGoSt a.moves.length (layState a g i) [a.moves.getD i 0] := by
    simp only [layState]
    rw [htake, layGoSt_append]
  refine ⟨hidx, ?_, ?_, ?_, rfl⟩
  · rw [hstep, layGoSt_single]
    dsimp only
    rw [hidx]
    exact updatePher_pher_same _ _ _ _ hn hk
  · rw [hstep, layGoSt_single]
  · simp only [Ant.lay_pheromone, layState, List.take_length]

/-- Witness for C5: an ant that recorded the single move `k = 1` from
square 0 (edge to square 10) on `Graph::new(1.0)`: step 0 deposits
`1 * (1 - 0) / (63 - 0) = 1/63` on that edge, giving pheromone `64/63`. -/
theorem C5_witness :
    (layState ⟨0, 10, [0, 10], [1]⟩ (Graph.new (F.fin 1)) (0 + 1)).1.pher 0 1 =
      F.fin (64 / 63) := by
  have h := C5_lay_deposit_formula ⟨0, 10, [0, 10], [1]⟩ (Graph.new (F.fin 1)) 0
    (by norm_num) (by norm_num) (by with_unfolding_all decide) (by with_unfolding_all decide)
  have h2 := h.2.1
  have hcur : (layState (⟨0, 10, [0, 10], [1]⟩ : Ant) (Graph.new (F.fin 1)) 0).2.1 = 0 := by
    with_unfolding_all decide
  have hmv : (⟨0, 10, [0, 10], [1]⟩ : Ant).moves.getD 0 0 = 1 := by decide
  rw [hcur, hmv] at h2
  rw [h2]
  with_unfolding_all decide

/-! ### C8: deposits never decrease pheromone -/

/-- `AddedNN a b`: `b` is obtained from `a` by adding finitely many
non-negative finite `f32` values. -/
inductive AddedNN : F → F → Prop where
  | refl (a : F) : AddedNN a a
  | step {a b : F} (d : ℚ) (hd : 0 ≤ d) (h : AddedNN a b) : AddedNN a (fadd b (F.fin d))

lemma AddedNN.trans2 {a b c : F} (h1 : AddedNN a b) (h2 : AddedNN b c) :
    AddedNN a c := by
  induction h2 with
  | refl => exact h1
  | step d hd h ih => exact AddedNN.step d hd ih

lemma flt_self (a : F) : flt a a = false := by
  cases a <;> simp [flt]

lemma flt_fadd_fin {b a : F} {d : ℚ} (hd : 0 ≤ d) (hba : flt b a = false) :
    flt (fadd b (F.fin d)) a = false := by
  cases a <;> cases b <;> simp_all [flt, fadd] <;> linarith

lemma AddedNN_flt {a b : F} (h : AddedNN a b) : flt b a = false := by
  induction h with
  | refl => exact flt_self _
  | step d hd h ih => exact flt_fadd_fin hd ih

lemma layDelta_fin (num i : ℕ) (h : i < 63) :
    ∃ d : ℚ, 0 ≤ d ∧ layDelta num i = F.fin d := by
  refine ⟨((num - i : ℕ) : ℚ) / ((63 - i : ℕ) : ℚ),
    div_nonneg (Nat.cast_nonneg _) (Nat.cast_nonneg _), ?_⟩
  have hB : ((63 - i : ℕ) : ℚ) ≠ 0 := Nat.cast_ne_zero.2 (by omega)
  simp [layDelta, fdiv, fmul, hB, one_mul]

lemma modList_getD_or {α : Type} (l : List α) (n0 n : ℕ) (f : α → α) (d : α) :
    (modList l n0 f).getD n d = l.getD n d ∨
    (modList l n0 f).getD n d = f (l.getD n d) := by
  rcases eq_or_ne n n0 with rfl | hne
  · rcases lt_or_ge n l.length with hlt | hge
    · right; exact modList_getD_lt _ _ _ _ hlt
    · left; rw [modList_ge _ _ _ hge]
  · left; exact modList_getD_ne _ _ _ _ _ hne

lemma updatePher_pher_cases (g : Graph) (n0 k0 : ℕ) (f : F → F) (n k : ℕ) :
    (updatePher g n0 k0 f).pher n k = g.pher n k ∨
    (updatePher g n0 k0 f).pher n k = f (g.pher n k) := by
  unfold updatePher Graph.pher Graph.node Node.edge
  rcases modList_getD_or g.nodes n0 n
      (fun node => { node with edges := modList node.edges k0 (fun e => { e with pheromone := f e.pheromone }) })
      default with hc | hc
  · rw [hc]; left; rfl
  · rw [hc]
    rcases modList_getD_or (g.nodes.getD n default).edges k0 k
        (fun e => { e with pheromone := f e.pheromone }) default with hc2 | hc2
    · rw [hc2]; left; rfl
    · rw [hc2]; right; rfl

lemma layGoSt_pher_AddedNN (num : ℕ) : ∀ (l : List ℕ) (g : Graph) (cur i : ℕ),
    i + l.length ≤ 63 → ∀ n k,
    AddedNN (g.pher n k) ((layGoSt num (g, cur, i) l).1.pher n k) := by
  intro l
  induction l with
  | nil => intro g cur i _ n k; exact AddedNN.refl _
  | cons k1 ks ih =>
    intro g cur i hle n k
    obtain ⟨d, hd, hD⟩ := layDelta_fin num i (by simp only [List.length_cons] at hle; omega)
    simp only [layGoSt]
    have hstep : AddedNN (g.pher n k)
        ((updatePher g cur k1 (fun p => fadd p (layDelta num i))).pher n k) := by
      rcases updatePher_pher_cases g cur k1 (fun p => fadd p (layDelta num i)) n k with hc | hc
      · rw [hc]; exact AddedNN.refl _
      · rw [hc, hD]
        exact AddedNN.step d hd (AddedNN.refl _)
    exact AddedNN.trans2 hstep
      (ih _ _ _ (by simp only [List.length_cons] at hle; omega) n k)

/-- C8: `Ant::lay_pheromone` never decreases any edge's pheromone: after
the replay, no edge's pheromone is `f32`-less-than its old value (every
deposit is a non-negative finite value for `i < num ≤ 63`).  `hnum`
restricts to move counts where the `usize` subtraction `63 - i` of the
source agrees with `ℕ` subtraction. -/
theorem C8_lay_never_decreases (a : Ant) (g : Graph) (hnum : a.moves.length ≤ 63)
    (n k : ℕ) : flt ((a.lay_pheromone g).pher n k) (g.pher n k) = false := by
  apply AddedNN_flt
  unfold Ant.lay_pheromone
  exact layGoSt_pher_AddedNN _ _ _ _ _ (by simpa using hnum) n k

/-- Witness for C8: the one-move ant on `Graph::new(1.0)` deposits on edge
`(0, 1)` and that edge's pheromone is not decreased. -/
theorem C8_witness :
    ((⟨0, 10, [0, 10], [1]⟩ : Ant).moves.length ≤ 63) ∧
    flt (((⟨0, 10, [0, 10], [1]⟩ : Ant).lay_pheromone (Graph.new (F.fin 1))).pher 0 1)
      ((Graph.new (F.fin 1)).pher 0 1) = false :=
  ⟨by decide, C8_lay_never_decreases _ _ (by decide) 0 1⟩

/-! ### C9: frame property of the replay -/

lemma updatePher_pher_ne (g : Graph) (n0 k0 : ℕ) (f : F → F) (n k : ℕ)
    (h : ¬ (n = n0 ∧ k = k0)) : (updatePher g n0 k0 f).pher n k = g.pher n k := by
  unfold updatePher Graph.pher Graph.node Node.edge
  rcases eq_or_ne n n0 with rfl | hne
  · have hk : k ≠ k0 := fun hkk => h ⟨rfl, hkk⟩
    rcases lt_or_ge n g.nodes.length with hlt | hge
    · rw [modList_getD_lt _ _ _ _ hlt]
      dsimp only
      rw [modList_getD_ne _ _ _ _ _ hk]
    · rw [modList_ge _ _ _ hge]
  · rw [modList_getD_ne _ _ _ _ _ hne]

/-- The graph shape (node count, coordinates, per-node edge counts, edge
targets) of `g2` equals that of `g`. -/
def graphShapeEq (g2 g : Graph) : Prop :=
  g2.nodes.length = g.nodes.length ∧
  ∀ n, (g2.node n).x = (g.node n).x ∧ (g2.node n).y = (g.node n).y ∧
    (g2.node n).edges.length = (g.node n).edges.length ∧
    ∀ k, ((g2.node n).edge k).target = ((g.node n).edge k).target

lemma graphShapeEq_refl (g : Graph) : graphShapeEq g g :=
  ⟨rfl, fun _ => ⟨rfl, rfl, rfl, fun _ => rfl⟩⟩

lemma graphShapeEq_trans {g3 g2 g1 : Graph} (h32 : graphShapeEq g3 g2)
    (h21 : graphShapeEq g2 g1) : graphShapeEq g3 g1 := by
  obtain ⟨hl32, hn32⟩ := h32
  obtain ⟨hl21, hn21⟩ := h21
  refine ⟨hl32.trans hl21, fun n => ?_⟩
  obtain ⟨hx32, hy32, he32, ht32⟩ := hn32 n
  obtain ⟨hx21, hy21, he21, ht21⟩ := hn21 n
  exact ⟨hx32.trans hx21, hy32.trans hy21, he32.trans he21,
    fun k => (ht32 k).trans (ht21 k)⟩

lemma updatePher_shape (g : Graph) (n0 k0 : ℕ) (f : F → F) :
    graphShapeEq (updatePher g n0 k0 f) g := by
  refine ⟨modList_length _ _ _, fun n => ?_⟩
  show ((updatePher g n0 k0 f).node n).x = _ ∧ _
  unfold updatePher Graph.node
  rcases modList_getD_or g.nodes n0 n
      (fun node => { node with edges := modList node.edges k0 (fun e => { e with pheromone := f e.pheromone }) })
      default with hc | hc
  · rw [hc]
    exact ⟨rfl, rfl, rfl, fun _ => rfl⟩
  · rw [hc]
    refine ⟨rfl, rfl, modList_length _ _ _, fun k => ?_⟩
    unfold Node.edge
    dsimp only
    rcases modList_getD_or (g.nodes.getD n default).edges k0 k
        (fun e => { e with pheromone := f e.pheromone }) default with hc2 | hc2
    · rw [hc2]
    · rw [hc2]

lemma layGoSt_shape (num : ℕ) : ∀ (l : List ℕ) (s : Graph × ℕ × ℕ),
    graphShapeEq (layGoSt num s l).1 s.1 := by
  intro l
  induction l with
  | nil => intro s; exact graphShapeEq_refl _
  | cons k1 ks ih =>
    rintro ⟨g, cur, i⟩
    simp only [layGoSt]
    exact graphShapeEq_trans (ih _) (updatePher_shape _ _ _ _)

lemma layGoSt_pher_frame (num : ℕ) : ∀ (l : List ℕ) (g : Graph) (cur i n k : ℕ),
    (n, k) ∉ layFootprintAux num (g, cur, i) l →
    (layGoSt num (g, cur, i) l).1.pher n k = g.pher n k := by
  intro l
  induction l with
  | nil => intro g cur i n k _; rfl
  | cons k1 ks ih =>
    intro g cur i n k hnot
    simp only [layFootprintAux, List.mem_cons, not_or] at hnot
    obtain ⟨hne, hrest⟩ := hnot
    simp only [layGoSt]
    rw [ih _ _ _ _ _ hrest]
    exact updatePher_pher_ne g cur k1 _ n k (fun hand => hne (by rw [hand.1, hand.2]))

/-- C9: `Ant::lay_pheromone` only modifies the pheromone of the edges it
replays (its footprint): the graph's structure — node count, coordinates,
per-node edge counts and every edge's target — is unchanged, and every
edge outside the footprint keeps its exact pheromone value.  `hnum`
restricts to move counts where the `usize` subtraction of the source
agrees with `ℕ` subtraction. -/
theorem C9_lay_frame (a : Ant) (g : Graph) (hnum : a.moves.length ≤ 63) :
    ((a.lay_pheromone g).nodes.length = g.nodes.length ∧
     ∀ n, ((a.lay_pheromone g).node n).x = (g.node n).x ∧
       ((a.lay_pheromone g).node n).y = (g.node n).y ∧
       ((a.lay_pheromone g).node n).edges.length = (g.node n).edges.length ∧
       ∀ k, (((a.lay_pheromone g).node n).edge k).target = ((g.node n).edge k).target) ∧
    ∀ n k, (n, k) ∉ a.layFootprint g → (a.lay_pheromone g).pher n k = g.pher n k := by
  constructor
  · exact layGoSt_shape a.moves.length a.moves (g, a.start, 0)
  · intro n k hnk
    unfold Ant.lay_pheromone
    unfold Ant.layFootprint at hnk
    exact layGoSt_pher_frame _ _ _ _ _ _ _ hnk

/-- Witness for C9: the one-move ant on `Graph::new(1.0)` touches only
edge `(0, 1)`; edge `(0, 0)` keeps its pheromone and the node count is
unchanged. -/
theorem C9_witness :
    ((⟨0, 10, [0, 10], [1]⟩ : Ant).lay_pheromone (Graph.new (F.fin 1))).pher 0 0 =
      (Graph.new (F.fin 1)).pher 0 0 ∧
    ((⟨0, 10, [0, 10], [1]⟩ : Ant).lay_pheromone (Graph.new (F.fin 1))).nodes.length =
      (Graph.new (F.fin 1)).nodes.length :=
  ⟨(C9_lay_frame _ _ (by decide)).2 0 0 (by with_unfolding_all decide),
   (C9_lay_frame _ _ (by decide)).1.1⟩
